import Mathlib

/-!
Verification of the semantic indexing and retrieval subsystem of the
SmartContentEngine repository.

Text is modelled as `List Char`.  A "word" is a maximal whitespace-free
token, modelling the JavaScript idiom `text.split(/\s+/).filter(Boolean)`
used throughout `indexContent.js` and `generateQA.js`.  Embedding vectors
are modelled as `List Int` (their numeric values never matter to the
claims, only lengths and identity); the external embedding service is an
oracle parameter.  Rational numbers stand in for JavaScript floats in the
similarity computations of `generateReport.ts`.
-/

deriving instance DecidableEq for Except

namespace SmartContent

abbrev Str := List Char

/-- `notWs c` holds when `c` is not whitespace (the characters kept by
`split(/\s+/)`). -/
def notWs (c : Char) : Bool := ! c.isWhitespace

/-- Accumulator worker for `wordsOf`: scans the character list, collecting
the current in-progress word (reversed) in `acc` and emitting it when a
whitespace character or the end of input is reached. -/
def splitAux : List Char → List Char → List (List Char)
  | [], [] => []
  | [], acc@(_ :: _) => [acc.reverse]
  | c :: cs, acc =>
    if c.isWhitespace then
      match acc with
      | [] => splitAux cs []
      | _ :: _ => acc.reverse :: splitAux cs []
    else splitAux cs (c :: acc)

/-- The word list of a text: the maximal whitespace-separated tokens, i.e.
`text.split(/\s+/).filter(Boolean)` from `indexContent.js` (`chunkText`,
`safeEmbedChunk`) and `generateQA.js` (`getChunkContent`). -/
def wordsOf (text : Str) : List Str := splitAux text []

theorem wordsOf_nil : wordsOf [] = [] := rfl

theorem wordsOf_cons_ws {c : Char} (cs : List Char) (h : c.isWhitespace = true) :
    wordsOf (c :: cs) = wordsOf cs := by
  simp [wordsOf, splitAux, h]

theorem splitAux_acc (cs : List Char) :
    ∀ acc : List Char, acc ≠ [] →
      splitAux cs acc =
        (acc.reverse ++ cs.takeWhile notWs) :: splitAux (cs.dropWhile notWs) [] := by
  induction cs with
  | nil =>
    intro acc hacc
    match acc, hacc with
    | a :: as, _ => simp [splitAux]
  | cons c cs ih =>
    intro acc hacc
    by_cases hws : c.isWhitespace
    · have hnot : notWs c = false := by simp [notWs, hws]
      match acc, hacc with
      | a :: as, _ =>
        simp only [splitAux, hws, if_true, List.takeWhile, List.dropWhile, hnot]
        simp
    · have hnot : notWs c = true := by simp [notWs, hws]
      simp only [splitAux, hws, if_false, List.takeWhile, List.dropWhile, hnot]
      rw [ih (c :: acc) (by simp)]
      simp

theorem wordsOf_cons_notws {c : Char} (cs : List Char) (h : c.isWhitespace = false) :
    wordsOf (c :: cs) =
      (c :: cs.takeWhile notWs) :: wordsOf (cs.dropWhile notWs) := by
  have hnot : notWs c = true := by simp [notWs, h]
  show splitAux (c :: cs) [] = _
  simp only [splitAux, h]
  rw [if_neg (by simp [h]), splitAux_acc cs [c] (by simp)]
  rfl

/-- Custom induction principle following the word structure of a text. -/
theorem wordsOf_induction (P : Str → Prop) (h0 : P [])
    (hws : ∀ c cs, c.isWhitespace = true → P cs → P (c :: cs))
    (htok : ∀ c cs, c.isWhitespace = false → P (cs.dropWhile notWs) → P (c :: cs)) :
    ∀ l, P l := by
  have main : ∀ n (l : Str), l.length ≤ n → P l := by
    intro n
    induction n with
    | zero =>
      intro l hl
      match l, hl with
      | [], _ => exact h0
    | succ n ih =>
      intro l hl
      match l with
      | [] => exact h0
      | c :: cs =>
        by_cases hc : c.isWhitespace
        · exact hws c cs hc (ih cs (by simp at hl; omega))
        · refine htok c cs (by simp [hc]) ?_
          have hle : (cs.dropWhile notWs).length ≤ cs.length :=
            (List.dropWhile_sublist notWs).length_le
          exact ih _ (by simp at hl; omega)
  intro l
  exact main l.length l le_rfl

/-- Every word produced by `wordsOf` is nonempty and whitespace-free. -/
theorem wordsOf_words_good (l : Str) :
    ∀ w ∈ wordsOf l, w ≠ [] ∧ ∀ c ∈ w, c.isWhitespace = false := by
  induction l using wordsOf_induction with
  | h0 => simp [wordsOf_nil]
  | hws c cs hc ih => rw [wordsOf_cons_ws cs hc]; exact ih
  | htok c cs hc ih =>
    rw [wordsOf_cons_notws cs hc]
    intro w hw
    rcases List.mem_cons.1 hw with hw | hw
    · constructor
      · simp [hw]
      · intro d hd
        rw [hw] at hd
        rcases List.mem_cons.1 hd with h | h
        · simpa [h] using hc
        · have := List.mem_takeWhile_imp h
          simpa [notWs] using this
    · exact ih w hw

theorem takeWhile_append_of_all {p : Char → Bool} {w : List Char} {d : Char}
    {t : List Char} (hw : ∀ c ∈ w, p c = true) (hd : p d = false) :
    (w ++ d :: t).takeWhile p = w ∧ (w ++ d :: t).dropWhile p = d :: t := by
  induction w with
  | nil => simp [List.takeWhile, List.dropWhile, hd]
  | cons a w ih =>
    have ha : p a = true := hw a (by simp)
    have ih' := ih fun c hc => hw c (by simp [hc])
    simp [List.takeWhile, List.dropWhile, ha, ih'.1, ih'.2]

theorem takeWhile_of_all {p : Char → Bool} {w : List Char}
    (hw : ∀ c ∈ w, p c = true) :
    w.takeWhile p = w ∧ w.dropWhile p = [] := by
  constructor
  · exact List.takeWhile_eq_self_iff.2 hw
  · exact List.dropWhile_eq_nil_iff.2 hw

/-- Splitting a single good word recovers it. -/
theorem wordsOf_single {w : Str} (hne : w ≠ [])
    (hgood : ∀ c ∈ w, c.isWhitespace = false) : wordsOf w = [w] := by
  match w, hne with
  | c :: cs, _ =>
    have hc : c.isWhitespace = false := hgood c (by simp)
    have hall : ∀ d ∈ cs, notWs d = true := by
      intro d hd; simp [notWs, hgood d (by simp [hd])]
    rw [wordsOf_cons_notws cs hc, (takeWhile_of_all hall).1,
      (takeWhile_of_all hall).2, wordsOf_nil]

/-- Splitting `w ++ ' ' :: t` for a good word `w` peels off `w`. -/
theorem wordsOf_word_append {w : Str} {t : Str} (hne : w ≠ [])
    (hgood : ∀ c ∈ w, c.isWhitespace = false) :
    wordsOf (w ++ ' ' :: t) = w :: wordsOf t := by
  match w, hne with
  | c :: cs, _ =>
    have hc : c.isWhitespace = false := hgood c (by simp)
    have hall : ∀ d ∈ cs, notWs d = true := by
      intro d hd; simp [notWs, hgood d (by simp [hd])]
    have hsp : notWs ' ' = false := by simp [notWs]
    have h := takeWhile_append_of_all (w := cs) (d := ' ') (t := t) hall hsp
    rw [List.cons_append, wordsOf_cons_notws _ hc, h.1, h.2,
      wordsOf_cons_ws t (by simp)]

/-- Joining good words with single spaces and re-splitting recovers the
word list: the round-trip at the heart of `chunkText`/`getChunkContent`. -/
theorem wordsOf_intercalate {ws : List Str}
    (h : ∀ w ∈ ws, w ≠ [] ∧ ∀ c ∈ w, c.isWhitespace = false) :
    wordsOf (List.intercalate [' '] ws) = ws := by
  induction ws with
  | nil => simp [List.intercalate, wordsOf_nil]
  | cons w ws ih =>
    match ws with
    | [] =>
      have hw := h w (by simp)
      simpa [List.intercalate] using wordsOf_single hw.1 hw.2
    | w' :: ws' =>
      have hw := h w (by simp)
      have hrest : ∀ v ∈ w' :: ws', v ≠ [] ∧ ∀ c ∈ v, c.isWhitespace = false :=
        fun v hv => h v (by simp [hv])
      have hstep : List.intercalate [' '] (w :: w' :: ws') =
          w ++ ' ' :: List.intercalate [' '] (w' :: ws') := by
        simp [List.intercalate, List.intersperse]
      rw [hstep, wordsOf_word_append hw.1 hw.2, ih hrest]

/-! ## Chunker (`chunkText`, indexContent.js lines 12-20)

The source loop `for (let i = 0; i < words.length; i += chunkSize)` slices
`chunkSize` words at a time.  `chunkWordsAux` carries a fuel argument only
to make the recursion structural (each iteration consumes at least one
word when `chunkSize > 0`; for `chunkSize = 0` the source loop never
terminates, a case outside every claim). -/

def chunkWordsAux : Nat → Nat → List Str → List (List Str)
  | _, _, [] => []
  | 0, _, _ :: _ => []
  | fuel + 1, C, w :: ws => ((w :: ws).take C) :: chunkWordsAux fuel C ((w :: ws).drop C)

/-- The word-level chunking loop of `chunkText`. -/
def chunkWords (C : Nat) (ws : List Str) : List (List Str) :=
  chunkWordsAux ws.length C ws

theorem chunkWordsAux_fuel {C : Nat} (hC : 0 < C) :
    ∀ fuel fuel' (ws : List Str), ws.length ≤ fuel → ws.length ≤ fuel' →
      chunkWordsAux fuel C ws = chunkWordsAux fuel' C ws := by
  intro fuel
  induction fuel with
  | zero =>
    intro fuel' ws h h'
    match ws, h with
    | [], _ => cases fuel' <;> rfl
  | succ n ih =>
    intro fuel' ws h h'
    match ws, fuel' with
    | [], f' => cases f' <;> rfl
    | w :: ws, f' + 1 =>
      simp only [chunkWordsAux]
      congr 1
      apply ih
      · simp at h ⊢; omega
      · simp at h' ⊢; omega

theorem chunkWords_nil (C : Nat) : chunkWords C [] = [] := rfl

theorem chunkWords_cons {C : Nat} (hC : 0 < C) (w : Str) (ws : List Str) :
    chunkWords C (w :: ws) =
      ((w :: ws).take C) :: chunkWords C ((w :: ws).drop C) := by
  show chunkWordsAux (ws.length + 1) C (w :: ws) = _
  simp only [chunkWordsAux]
  congr 1
  apply chunkWordsAux_fuel hC
  · simp; omega
  · exact le_rfl

/-- Strong-induction principle matching the chunking loop. -/
theorem chunk_induction {C : Nat} (hC : 0 < C) (P : List Str → Prop) (h0 : P [])
    (hstep : ∀ w ws, P ((w :: ws).drop C) → P (w :: ws)) : ∀ ws, P ws := by
  have main : ∀ n (ws : List Str), ws.length ≤ n → P ws := by
    intro n
    induction n with
    | zero =>
      intro ws h
      match ws, h with
      | [], _ => exact h0
    | succ n ih =>
      intro ws h
      match ws with
      | [] => exact h0
      | w :: ws =>
        refine hstep w ws (ih _ ?_)
        simp at h ⊢
        omega
  intro ws
  exact main ws.length ws le_rfl

theorem chunkWords_flatten {C : Nat} (hC : 0 < C) (ws : List Str) :
    (chunkWords C ws).flatten = ws := by
  induction ws using chunk_induction hC with
  | h0 => rfl
  | hstep w ws ih =>
    rw [chunkWords_cons hC]
    simp only [List.flatten_cons, ih, List.take_append_drop]

theorem chunkWords_ne_nil {C : Nat} (hC : 0 < C) (ws : List Str) :
    chunkWords C ws = [] ↔ ws = [] := by
  match ws with
  | [] => simp [chunkWords_nil]
  | w :: ws => rw [chunkWords_cons hC]; simp

theorem ceil_div_step {C n : Nat} (hC : 0 < C) (hn : 0 < n) :
    (n - C + C - 1) / C + 1 = (n + C - 1) / C := by
  have hrw : n + C - 1 = (n - 1) + C := by omega
  rw [hrw, Nat.add_div_right _ hC]
  rcases le_or_lt n C with h | h
  · have h1 : n - C + C - 1 = C - 1 := by omega
    rw [h1, Nat.div_eq_of_lt (by omega : C - 1 < C),
      Nat.div_eq_of_lt (by omega : n - 1 < C)]
  · have h1 : n - C + C - 1 = n - 1 := by omega
    rw [h1]

theorem chunkWords_length {C : Nat} (hC : 0 < C) (ws : List Str) :
    (chunkWords C ws).length = (ws.length + C - 1) / C := by
  induction ws using chunk_induction hC with
  | h0 => simp [chunkWords_nil, Nat.div_eq_of_lt (by omega : C - 1 < C)]
  | hstep w ws ih =>
    rw [chunkWords_cons hC]
    simp only [List.length_cons, ih, List.length_drop]
    exact ceil_div_step hC (by omega)

theorem chunkWords_dropLast_length {C : Nat} (hC : 0 < C) (ws : List Str) :
    ∀ ch ∈ (chunkWords C ws).dropLast, ch.length = C := by
  induction ws using chunk_induction hC with
  | h0 => simp [chunkWords_nil]
  | hstep w ws ih =>
    rw [chunkWords_cons hC]
    intro ch hch
    rcases hrest : chunkWords C ((w :: ws).drop C) with _ | ⟨r, rs⟩
    · rw [hrest] at hch
      simp at hch
    · rw [hrest] at hch
      rw [List.dropLast_cons_of_ne_nil (by simp)] at hch
      rcases List.mem_cons.1 hch with h | h
      · have hne : (w :: ws).drop C ≠ [] := by
          intro hemp
          rw [hemp, chunkWords_nil] at hrest
          exact absurd hrest.symm (by simp)
        have hlen : C ≤ (w :: ws).length := by
          by_contra hlt
          push_neg at hlt
          have : (w :: ws).drop C = [] := List.drop_eq_nil_of_le (by omega)
          exact hne this
        rw [h, List.length_take]
        omega
      · exact ih ch (by rw [hrest]; exact h)

theorem chunkWords_mem_words {C : Nat} (hC : 0 < C) (ws : List Str) :
    ∀ ch ∈ chunkWords C ws, ∀ w ∈ ch, w ∈ ws := by
  intro ch hch w hw
  have : w ∈ (chunkWords C ws).flatten := List.mem_flatten.2 ⟨ch, hch, hw⟩
  rwa [chunkWords_flatten hC] at this

theorem chunkWords_getElem? {C : Nat} (hC : 0 < C) (ws : List Str) :
    ∀ i, i < (chunkWords C ws).length →
      (chunkWords C ws)[i]? = some ((ws.drop (i * C)).take C) := by
  induction ws using chunk_induction hC with
  | h0 => simp [chunkWords_nil]
  | hstep w ws ih =>
    intro i hi
    rw [chunkWords_cons hC] at hi ⊢
    match i with
    | 0 => simp
    | i + 1 =>
      simp only [List.getElem?_cons_succ]
      rw [ih i (by simpa using hi)]
      rw [List.drop_drop]
      congr 3
      ring

/-- `chunkText` (indexContent.js lines 12-20): split into words, slice
`chunkSize` words at a time, re-join each slice with single spaces. -/
def chunkText (text : Str) (chunkSize : Nat) : List Str :=
  (chunkWords chunkSize (wordsOf text)).map (List.intercalate [' '])

/-- **C1.** For text `T` with `W` words and chunk size `C > 0`, `chunkText`
returns exactly `ceil(W/C)` chunks, every chunk except possibly the last
has exactly `C` words, concatenating the chunks' word sequences in order
reproduces `T`'s word sequence, and empty text yields zero chunks. -/
theorem chunkText_correct (t : Str) (C : Nat) (hC : 0 < C) :
    (chunkText t C).length = ((wordsOf t).length + C - 1) / C
    ∧ (∀ ch ∈ (chunkText t C).dropLast, (wordsOf ch).length = C)
    ∧ ((chunkText t C).map wordsOf).flatten = wordsOf t
    ∧ (t = [] → chunkText t C = []) := by
  have hgood := wordsOf_words_good t
  have hchunk : ∀ ch ∈ chunkWords C (wordsOf t),
      wordsOf (List.intercalate [' '] ch) = ch := by
    intro ch hch
    exact wordsOf_intercalate fun w hw =>
      hgood w (chunkWords_mem_words hC (wordsOf t) ch hch w hw)
  refine ⟨?_, ?_, ?_, ?_⟩
  · simp [chunkText, chunkWords_length hC]
  · intro ch hch
    rw [chunkText, ← List.map_dropLast] at hch
    rcases List.mem_map.1 hch with ⟨c, hc, rfl⟩
    have hmem : c ∈ chunkWords C (wordsOf t) := (List.dropLast_sublist _).mem hc
    rw [hchunk c hmem]
    exact chunkWords_dropLast_length hC (wordsOf t) c hc
  · rw [chunkText, List.map_map]
    have heq : (chunkWords C (wordsOf t)).map (wordsOf ∘ List.intercalate [' '])
        = (chunkWords C (wordsOf t)).map id := by
      apply List.map_congr_left
      intro ch hch
      exact hchunk ch hch
    rw [heq, List.map_id]
    exact chunkWords_flatten hC _
  · intro ht
    rw [ht]
    rfl

/-- Sample text with three words, used to instantiate `chunkText_correct`. -/
def sampleText : Str := "alpha beta gamma".toList

theorem chunkText_correct_witness :
    0 < 2
    ∧ ((chunkText sampleText 2).length = ((wordsOf sampleText).length + 2 - 1) / 2
      ∧ (∀ ch ∈ (chunkText sampleText 2).dropLast, (wordsOf ch).length = 2)
      ∧ ((chunkText sampleText 2).map wordsOf).flatten = wordsOf sampleText
      ∧ (sampleText = [] → chunkText sampleText 2 = [])) :=
  ⟨by decide, chunkText_correct sampleText 2 (by decide)⟩

/-! ## Retrieval-time chunk recomputation (C2)

`getChunkContent` (generateQA.js lines 33-46) re-reads the source, splits
it into words and slices out the `chunkIndex`-th window of `chunkSize`
words.  At index time, however, `indexDocuments` (indexContent.js lines
88-126) additionally trims every 50-word chunk to `MAX_ALLOWED_WORDS = 30`
words before embedding; the recomputation never applies that hard cap. -/

/-- `getChunkContent` (generateQA.js lines 33-46), happy path after the
file read: `meta.chunkIndex` is 1-based, `chunkSize` defaults to the
configured 50. -/
def getChunkContent (text : Str) (chunkIndex : Nat) (chunkSize : Nat) : Str :=
  List.intercalate [' ']
    (((wordsOf text).drop ((chunkIndex - 1) * chunkSize)).take chunkSize)

/-- The post-split hard cap of indexContent.js lines 112-118: a chunk with
more than `cap` words is replaced by its first `cap` words re-joined;
otherwise the chunk string is kept as-is. -/
def hardCapChunk (cap : Nat) (chunk : Str) : Str :=
  let ws := wordsOf chunk
  if cap < ws.length then List.intercalate [' '] (ws.take cap) else chunk

/-- The chunk text produced by the indexing-time chunking pipeline for the
1-based ordinal `i`: the `i`-th 50-word chunk of the source after the
30-word hard cap (indexContent.js lines 88-126). -/
def indexStoredChunk (text : Str) (i : Nat) : Option Str :=
  ((chunkText text 50)[i - 1]?).map (hardCapChunk 30)

/-- A source text of 31 one-letter words: one 50-word chunk, trimmed to 30
words at index time but recomputed untrimmed at retrieval time. -/
def chunkCexText : Str := List.intercalate [' '] (List.replicate 31 ['a'])

/-- **C2, counterexample.** On a 31-word source, the chunk embedded at
index time keeps only the first 30 words, while the retrieval-time
recomputation returns all 31 words: the two differ. -/
theorem chunk_recompute_counterexample :
    indexStoredChunk chunkCexText 1
        = some (List.intercalate [' '] (List.replicate 30 ['a']))
    ∧ getChunkContent chunkCexText 1 50
        = List.intercalate [' '] (List.replicate 31 ['a'])
    ∧ List.intercalate [' '] (List.replicate 30 ['a'])
        ≠ List.intercalate [' '] (List.replicate 31 ['a']) :=
  ⟨by decide, by decide, by decide⟩

/-- **C2, amended.** The recomputation reproduces exactly the 50-word
split chunk *before* hard-cap trimming; the indexing pipeline stored that
chunk's 30-word prefix, and the two agree precisely when the chunk has at
most 30 words. -/
theorem chunk_recompute_amended (text : Str) (i : Nat) (h1 : 1 ≤ i)
    (h2 : i ≤ (chunkText text 50).length) :
    ∃ ch, (chunkText text 50)[i - 1]? = some ch
    ∧ getChunkContent text i 50 = ch
    ∧ indexStoredChunk text i = some (hardCapChunk 30 ch)
    ∧ wordsOf (hardCapChunk 30 ch) = (wordsOf ch).take 30
    ∧ (getChunkContent text i 50 = hardCapChunk 30 ch ↔ (wordsOf ch).length ≤ 30) := by
  have h50 : (0 : Nat) < 50 := by omega
  have hlen : i - 1 < (chunkWords 50 (wordsOf text)).length := by
    rw [chunkText] at h2
    simp only [List.length_map] at h2
    omega
  have hget := chunkWords_getElem? h50 (wordsOf text) (i - 1) hlen
  set slice := ((wordsOf text).drop ((i - 1) * 50)).take 50 with hslice
  have hchget : (chunkText text 50)[i - 1]? = some (List.intercalate [' '] slice) := by
    rw [chunkText, List.getElem?_map, hget]
    rfl
  have hslicegood : ∀ w ∈ slice, w ≠ [] ∧ ∀ c ∈ w, c.isWhitespace = false := by
    intro w hw
    refine wordsOf_words_good text w ?_
    have h1 := List.take_sublist 50 ((wordsOf text).drop ((i - 1) * 50))
    have h2 := List.drop_sublist ((i - 1) * 50) (wordsOf text)
    exact h2.mem (h1.mem hw)
  have hwords : wordsOf (List.intercalate [' '] slice) = slice :=
    wordsOf_intercalate hslicegood
  refine ⟨List.intercalate [' '] slice, hchget, ?_, ?_, ?_, ?_⟩
  · rfl
  · rw [indexStoredChunk, hchget]
    rfl
  · rw [hardCapChunk, hwords]
    by_cases hcap : 30 < slice.length
    · rw [if_pos hcap]
      apply wordsOf_intercalate
      intro w hw
      exact hslicegood w ((List.take_sublist 30 slice).mem hw)
    · rw [if_neg hcap]
      rw [hwords, List.take_of_length_le (by omega)]
  · rw [hardCapChunk, hwords]
    constructor
    · intro heq
      by_contra hgt
      push_neg at hgt
      rw [if_pos hgt] at heq
      have : wordsOf (getChunkContent text i 50) = slice := hwords
      rw [heq] at this
      have htake : wordsOf (List.intercalate [' '] (slice.take 30)) = slice.take 30 := by
        apply wordsOf_intercalate
        intro w hw
        exact hslicegood w ((List.take_sublist 30 slice).mem hw)
      rw [htake] at this
      have : (slice.take 30).length = slice.length := by rw [this]
      rw [List.length_take] at this
      omega
    · intro hle
      rw [if_neg (by omega)]
      rfl

/-- Witness instantiating `chunk_recompute_amended` on the 31-word text. -/
theorem chunk_recompute_amended_witness :
    (1 ≤ 1 ∧ 1 ≤ (chunkText chunkCexText 50).length)
    ∧ (∃ ch, (chunkText chunkCexText 50)[1 - 1]? = some ch
      ∧ getChunkContent chunkCexText 1 50 = ch
      ∧ indexStoredChunk chunkCexText 1 = some (hardCapChunk 30 ch)
      ∧ wordsOf (hardCapChunk 30 ch) = (wordsOf ch).take 30
      ∧ (getChunkContent chunkCexText 1 50 = hardCapChunk 30 ch
          ↔ (wordsOf ch).length ≤ 30)) :=
  ⟨⟨le_rfl, by decide⟩, chunk_recompute_amended chunkCexText 1 le_rfl (by decide)⟩

/-! ## Resilient embedder and indexing pipeline
(indexContent.js lines 30-53 and 143-192)

The external embedding service is an oracle `Str → EmbedOutcome`; the error
classification `error.message.includes("input length exceeds maximum
context length")` becomes the `tooLong` constructor, every other failure
`fail`.  Vector components are modelled as integers (only lengths and
identity of vectors matter to the claims). -/

/-- Outcome of one `embedding.embedDocuments([text])` call. -/
inductive EmbedOutcome where
  | ok (v : List Int)
  | tooLong
  | fail
deriving DecidableEq

abbrev EmbedOracle := Str → EmbedOutcome

/-- The truncation step of `safeEmbedChunk` (indexContent.js lines 40-43):
re-split the current chunk into words, keep
`max(floor(words.length * 0.8), 1)` of them, re-join with spaces.
`floor(w * 0.8)` on a word count is exactly `w * 4 / 5` in natural
division. -/
def truncate80 (cur : Str) : Str :=
  let ws := wordsOf cur
  List.intercalate [' '] (ws.take (max (ws.length * 4 / 5) 1))

/-- The attempt loop of `safeEmbedChunk` with the remaining attempt budget
explicit.  `Except.error ()` models a rethrown non-length error aborting
the run; `Except.ok none` models exhaustion (chunk dropped). -/
def safeEmbedAux (embed : EmbedOracle) : Nat → Str → Except Unit (Option (Str × List Int))
  | 0, _ => .ok none
  | n + 1, cur =>
    match embed cur with
    | .ok v => .ok (some (cur, v))
    | .tooLong => safeEmbedAux embed n (truncate80 cur)
    | .fail => .error ()

/-- `safeEmbedChunk` (indexContent.js lines 30-53) with its default
`maxAttempts = 5`. -/
def safeEmbedChunk (embed : EmbedOracle) (chunk : Str) :
    Except Unit (Option (Str × List Int)) :=
  safeEmbedAux embed 5 chunk

/-- Metadata persisted per chunk in the document map
(indexContent.js line 121). -/
structure DocMeta where
  source : Str
  chunkIndex : Nat
  totalChunks : Nat
deriving DecidableEq

/-- A chunk document as pushed onto `docs` (indexContent.js lines 119-122). -/
structure Document where
  pageContent : Str
  metadata : DocMeta
deriving DecidableEq

/-- The embedding loop of `indexDocuments` (indexContent.js lines 143-158):
returns the parallel `validEmbeddings`/`validDocs` accumulators, or an
error when a non-length embedding failure is rethrown.  Note that the
source pushes the *original* `doc`, discarding `result.chunk`. -/
def embedPhase (embed : EmbedOracle) : List Document → Except Unit (List (List Int) × List Document)
  | [] => .ok ([], [])
  | d :: ds =>
    match safeEmbedChunk embed d.pageContent with
    | .error e => .error e
    | .ok none => embedPhase embed ds
    | .ok (some (_, v)) =>
      match embedPhase embed ds with
      | .error e => .error e
      | .ok (es, vds) => .ok (v :: es, d :: vds)

/-- The persisted snapshot `{dim, nbDocs, flatArray}`
(indexContent.js lines 179-183). -/
structure IndexData where
  dim : Nat
  nbDocs : Nat
  flatArray : List Int
deriving DecidableEq

/-- Modelled from the spec: the external flat vector index (`faiss-node`'s
`IndexFlatL2`, not part of this repository) enforces the collection
dimension at insertion (§3: "dimension D is fixed per collection and
enforced at insertion").  `index.add` receives only the row-major *flat*
array, so the only enforcement possible at that interface is that the
total length is a whole number of `dim`-sized rows; a zero dimension is
likewise rejected (`length % 0` is `NaN` in JavaScript, failing the
`=== 0` check). -/
def faissAddOk (dim : Nat) (flat : List Int) : Bool :=
  decide (dim ≠ 0) && decide (dim ∣ flat.length)

/-- The tail of `indexDocuments` (indexContent.js lines 161-192): abort
with exit(1) when nothing embedded, build the Faiss index from the first
vector's length and the flattened array (aborting the run if the external
add rejects it), then persist the snapshot and the document map. -/
def finalize (ves : List (List Int)) (vds : List Document) :
    Except Unit (IndexData × List DocMeta) :=
  match ves with
  | [] => .error ()
  | v0 :: _ =>
    let dim := v0.length
    let flat := ves.flatten
    if faissAddOk dim flat then
      .ok (⟨dim, ves.length, flat⟩, vds.map (·.metadata))
    else
      .error ()

/-- The embed-then-persist pipeline of `indexDocuments`: a run either
persists one snapshot and one document map, or fails without persisting. -/
def runIndex (embed : EmbedOracle) (docs : List Document) :
    Except Unit (IndexData × List DocMeta) :=
  match embedPhase embed docs with
  | .error e => .error e
  | .ok (ves, vds) => finalize ves vds

theorem safeEmbedAux_exhaust (embed : EmbedOracle) :
    ∀ n cur, (∀ i < n, embed (truncate80^[i] cur) = .tooLong) →
      safeEmbedAux embed n cur = .ok none := by
  intro n
  induction n with
  | zero => intro cur _; rfl
  | succ n ih =>
    intro cur h
    have h0 : embed cur = .tooLong := by simpa using h 0 (by omega)
    simp only [safeEmbedAux, h0]
    apply ih
    intro i hi
    rw [← Function.iterate_succ_apply]
    exact h (i + 1) (by omega)

theorem safeEmbedAux_success (embed : EmbedOracle) :
    ∀ n cur i v, i < n → (∀ j < i, embed (truncate80^[j] cur) = .tooLong) →
      embed (truncate80^[i] cur) = .ok v →
      safeEmbedAux embed n cur = .ok (some (truncate80^[i] cur, v)) := by
  intro n
  induction n with
  | zero => intro cur i v hi _ _; omega
  | succ n ih =>
    intro cur i v hi hprev hok
    match i with
    | 0 =>
      simp only [Function.iterate_zero_apply] at hok ⊢
      simp only [safeEmbedAux, hok]
    | i + 1 =>
      have h0 : embed cur = .tooLong := by simpa using hprev 0 (by omega)
      simp only [safeEmbedAux, h0]
      have := ih (truncate80 cur) i v (by omega)
        (fun j hj => by
          rw [← Function.iterate_succ_apply]
          exact hprev (j + 1) (by omega))
        (by rwa [← Function.iterate_succ_apply])
      rw [this, ← Function.iterate_succ_apply]

theorem safeEmbedAux_rethrow (embed : EmbedOracle) :
    ∀ n cur i, i < n → (∀ j < i, embed (truncate80^[j] cur) = .tooLong) →
      embed (truncate80^[i] cur) = .fail →
      safeEmbedAux embed n cur = .error () := by
  intro n
  induction n with
  | zero => intro cur i hi _ _; omega
  | succ n ih =>
    intro cur i hi hprev hfail
    match i with
    | 0 =>
      simp only [Function.iterate_zero_apply] at hfail
      simp only [safeEmbedAux, hfail]
    | i + 1 =>
      have h0 : embed cur = .tooLong := by simpa using hprev 0 (by omega)
      simp only [safeEmbedAux, h0]
      exact ih (truncate80 cur) i (by omega)
        (fun j hj => by
          rw [← Function.iterate_succ_apply]
          exact hprev (j + 1) (by omega))
        (by rwa [Function.iterate_succ_apply] at hfail)

/-- Words of the truncated chunk: the first `max(floor(0.8w), 1)` words. -/
theorem truncate80_words (cur : Str) (h : wordsOf cur ≠ []) :
    wordsOf (truncate80 cur) = (wordsOf cur).take (max ((wordsOf cur).length * 4 / 5) 1)
    ∧ (wordsOf (truncate80 cur)).length = max ((wordsOf cur).length * 4 / 5) 1 := by
  have hgood : ∀ w ∈ (wordsOf cur).take (max ((wordsOf cur).length * 4 / 5) 1),
      w ≠ [] ∧ ∀ c ∈ w, c.isWhitespace = false := by
    intro w hw
    exact wordsOf_words_good cur w ((List.take_sublist _ _).mem hw)
  have heq : wordsOf (truncate80 cur)
      = (wordsOf cur).take (max ((wordsOf cur).length * 4 / 5) 1) :=
    wordsOf_intercalate hgood
  refine ⟨heq, ?_⟩
  rw [heq, List.length_take]
  have hpos : 0 < (wordsOf cur).length := List.length_pos.2 h
  have : (wordsOf cur).length * 4 / 5 ≤ (wordsOf cur).length :=
    Nat.div_le_of_le_mul (by omega)
  omega

/-- **C3.** `safeEmbedChunk` retries an input-too-long failure on the
word-boundary 80% truncation, makes at most 5 attempts (succeeding at
attempt `i < 5` returns the `i`-times-truncated text and its vector), a
chunk whose attempts are exhausted is dropped — contributing no vector and
no document-map entry while the indexing run continues — and any failure
not classified as input-too-long is rethrown without further attempts. -/
theorem safeEmbedChunk_correct (embed : EmbedOracle) (chunk : Str) :
    ((∀ i < 5, embed (truncate80^[i] chunk) = .tooLong) →
      safeEmbedChunk embed chunk = .ok none)
    ∧ (∀ i v, i < 5 → (∀ j < i, embed (truncate80^[j] chunk) = .tooLong) →
        embed (truncate80^[i] chunk) = .ok v →
        safeEmbedChunk embed chunk = .ok (some (truncate80^[i] chunk, v)))
    ∧ (∀ i, i < 5 → (∀ j < i, embed (truncate80^[j] chunk) = .tooLong) →
        embed (truncate80^[i] chunk) = .fail →
        safeEmbedChunk embed chunk = .error ())
    ∧ (∀ d ds, d.pageContent = chunk → safeEmbedChunk embed chunk = .ok none →
        embedPhase embed (d :: ds) = embedPhase embed ds)
    ∧ (wordsOf chunk ≠ [] →
        (wordsOf (truncate80 chunk)).length = max ((wordsOf chunk).length * 4 / 5) 1) := by
  refine ⟨?_, ?_, ?_, ?_, ?_⟩
  · intro h
    exact safeEmbedAux_exhaust embed 5 chunk h
  · intro i v hi hprev hok
    exact safeEmbedAux_success embed 5 chunk i v hi hprev hok
  · intro i hi hprev hfail
    exact safeEmbedAux_rethrow embed 5 chunk i hi hprev hfail
  · intro d ds hd hdrop
    simp only [embedPhase, hd, hdrop]
  · intro h
    exact (truncate80_words chunk h).2

/-- An oracle for which every text is reported too long: it exhausts the
five attempts on any chunk. -/
def alwaysTooLong : EmbedOracle := fun _ => .tooLong

theorem safeEmbedChunk_correct_witness :
    ((∀ i < 5, alwaysTooLong (truncate80^[i] sampleText) = .tooLong)
      ∧ safeEmbedChunk alwaysTooLong sampleText = .ok none)
    ∧ (wordsOf sampleText ≠ []
      ∧ (wordsOf (truncate80 sampleText)).length
          = max ((wordsOf sampleText).length * 4 / 5) 1) :=
  ⟨⟨fun _ _ => rfl,
      (safeEmbedChunk_correct alwaysTooLong sampleText).1 (fun _ _ => rfl)⟩,
    ⟨by decide,
      (safeEmbedChunk_correct alwaysTooLong sampleText).2.2.2.2 (by decide)⟩⟩

theorem safeEmbedAux_ok_inv (embed : EmbedOracle) :
    ∀ n cur c v, safeEmbedAux embed n cur = .ok (some (c, v)) → embed c = .ok v := by
  intro n
  induction n with
  | zero => intro cur c v h; simp [safeEmbedAux] at h
  | succ n ih =>
    intro cur c v h
    cases hcur : embed cur with
    | ok w =>
      simp only [safeEmbedAux, hcur, Except.ok.injEq, Option.some.injEq,
        Prod.mk.injEq] at h
      obtain ⟨rfl, rfl⟩ := h
      exact hcur
    | tooLong =>
      simp only [safeEmbedAux, hcur] at h
      exact ih (truncate80 cur) c v h
    | fail => simp [safeEmbedAux, hcur] at h

theorem embedPhase_ok_inv (embed : EmbedOracle) :
    ∀ docs es vds, embedPhase embed docs = .ok (es, vds) →
      es.length = vds.length ∧ ∀ v ∈ es, ∃ t, embed t = .ok v := by
  intro docs
  induction docs with
  | nil =>
    intro es vds h
    simp only [embedPhase, Except.ok.injEq, Prod.mk.injEq] at h
    obtain ⟨rfl, rfl⟩ := h
    simp
  | cons d ds ih =>
    intro es vds h
    cases hs : safeEmbedChunk embed d.pageContent with
    | error e =>
      simp only [embedPhase, hs] at h
      exact Except.noConfusion h
    | ok o =>
      match o with
      | none =>
        simp only [embedPhase, hs] at h
        exact ih es vds h
      | some (c, v) =>
        cases hrest : embedPhase embed ds with
        | error e =>
          simp only [embedPhase, hs, hrest] at h
          exact Except.noConfusion h
        | ok p =>
          obtain ⟨es', vds'⟩ := p
          simp only [embedPhase, hs, hrest, Except.ok.injEq, Prod.mk.injEq] at h
          obtain ⟨rfl, rfl⟩ := h
          obtain ⟨hlen, hall⟩ := ih es' vds' hrest
          constructor
          · simp [hlen]
          · intro w hw
            rcases List.mem_cons.1 hw with rfl | hw
            · exact ⟨c, safeEmbedAux_ok_inv embed 5 d.pageContent c w hs⟩
            · exact hall w hw

/-- **C5.** Provided the embedding service honours its fixed-dimension
contract (every successful embedding has length `d`), every indexing run
that persists does so with `flatArray.length = dim * nbDocs` and
`nbDocs = docMapping.length`. -/
theorem snapshot_invariant (embed : EmbedOracle) (docs : List Document) (d : Nat)
    (hdim : ∀ t v, embed t = .ok v → v.length = d)
    (ix : IndexData) (dm : List DocMeta)
    (hrun : runIndex embed docs = .ok (ix, dm)) :
    ix.flatArray.length = ix.dim * ix.nbDocs ∧ ix.nbDocs = dm.length := by
  unfold runIndex at hrun
  cases hphase : embedPhase embed docs with
  | error e => rw [hphase] at hrun; simp at hrun
  | ok p =>
    obtain ⟨ves, vds⟩ := p
    rw [hphase] at hrun
    obtain ⟨hlen, hall⟩ := embedPhase_ok_inv embed docs ves vds hphase
    have hdims : ∀ v ∈ ves, v.length = d := by
      intro v hv
      obtain ⟨t, ht⟩ := hall v hv
      exact hdim t v ht
    match ves, hrun with
    | v0 :: rest, hrun =>
      simp only [finalize] at hrun
      by_cases hok : faissAddOk v0.length ((v0 :: rest).flatten) = true
      · rw [if_pos hok] at hrun
        simp only [Except.ok.injEq, Prod.mk.injEq] at hrun
        obtain ⟨rfl, rfl⟩ := hrun
        have hmap : ((v0 :: rest).map List.length) = List.replicate (v0 :: rest).length d := by
          have hlenmap : (v0 :: rest).length = ((v0 :: rest).map List.length).length := by
            simp
          rw [hlenmap]
          apply List.eq_replicate_of_mem
          intro x hx
          rcases List.mem_map.1 hx with ⟨v, hv, rfl⟩
          exact hdims v hv
        constructor
        · show (v0 :: rest).flatten.length = v0.length * (v0 :: rest).length
          rw [List.length_flatten, hmap, List.sum_replicate, smul_eq_mul,
            hdims v0 (by simp)]
          ring
        · show (v0 :: rest).length = (vds.map (·.metadata)).length
          simp [← hlen]
      · rw [if_neg hok] at hrun
        simp at hrun

/-- A well-behaved oracle embedding every text to the same 2-dimensional
vector, with one sample document. -/
def embedOk2 : EmbedOracle := fun _ => .ok [1, 2]

def sampleMetaA : DocMeta := ⟨"a.txt".toList, 1, 1⟩

def sampleDocA : Document := ⟨"alpha beta".toList, sampleMetaA⟩

theorem snapshot_invariant_witness :
    (∀ t v, embedOk2 t = .ok v → v.length = 2)
    ∧ runIndex embedOk2 [sampleDocA] = .ok (⟨2, 1, [1, 2]⟩, [sampleMetaA])
    ∧ ((⟨2, 1, [1, 2]⟩ : IndexData).flatArray.length
        = (⟨2, 1, ([1, 2] : List Int)⟩ : IndexData).dim
          * (⟨2, 1, ([1, 2] : List Int)⟩ : IndexData).nbDocs
      ∧ (⟨2, 1, ([1, 2] : List Int)⟩ : IndexData).nbDocs = [sampleMetaA].length) :=
  ⟨fun t v h => by
      simp only [embedOk2, EmbedOutcome.ok.injEq] at h
      subst h
      rfl,
    by decide,
    snapshot_invariant embedOk2 [sampleDocA] 2
      (fun t v h => by
        simp only [embedOk2, EmbedOutcome.ok.injEq] at h
        subst h
        rfl)
      ⟨2, 1, [1, 2]⟩ [sampleMetaA] (by decide)⟩

/-! ## Dimension mismatches (C6)

`indexDocuments` never compares embedding lengths: it takes
`finalDim = validEmbeddings[0].length` and hands the flattened array to
the external index, whose only possible check at that interface is
divisibility of the total length. -/

def metaB : DocMeta := ⟨"b.txt".toList, 1, 1⟩

/-- A misbehaving oracle: the first document embeds to a 2-vector, every
other text to a 4-vector. -/
def embedMixed : EmbedOracle := fun t =>
  if t = ['a'] then .ok [1, 1] else .ok [5, 5, 5, 5]

def docsMixed : List Document := [⟨['a'], sampleMetaA⟩, ⟨['b'], metaB⟩]

/-- **C6, counterexample.** A run in which the second embedding has length
4 while the collection dimension is 2 persists its snapshot (the flat
total 6 is divisible by 2), silently mixing dimensions: the persisted
invariant `flatArray.length = dim * nbDocs` is violated. -/
theorem dim_mismatch_counterexample :
    embedMixed ['b'] = .ok [5, 5, 5, 5]
    ∧ ([5, 5, 5, 5] : List Int).length ≠ 2
    ∧ runIndex embedMixed docsMixed
        = .ok (⟨2, 2, [1, 1, 5, 5, 5, 5]⟩, [sampleMetaA, metaB])
    ∧ (⟨2, 2, [1, 1, 5, 5, 5, 5]⟩ : IndexData).flatArray.length
        ≠ (⟨2, 2, ([1, 1, 5, 5, 5, 5] : List Int)⟩ : IndexData).dim
          * (⟨2, 2, ([1, 1, 5, 5, 5, 5] : List Int)⟩ : IndexData).nbDocs :=
  ⟨by decide, by decide, by decide, by decide⟩

/-- **C6, amended.** The run fails fatally (persisting nothing) exactly
when the flattened total length is not a whole number of rows of the first
vector's length (or that length is zero); every snapshot that does persist
satisfies only this divisibility, so equal-length violations that keep the
total divisible are silently persisted. -/
theorem dim_mismatch_amended (embed : EmbedOracle) (docs : List Document) :
    (∀ ves vds, embedPhase embed docs = .ok (ves, vds) → ves ≠ [] →
      ¬ (ves.headI.length ≠ 0 ∧ ves.headI.length ∣ ves.flatten.length) →
      runIndex embed docs = .error ())
    ∧ (∀ ix dm, runIndex embed docs = .ok (ix, dm) →
        ix.dim ≠ 0 ∧ ix.dim ∣ ix.flatArray.length) := by
  constructor
  · intro ves vds hphase hne hnot
    unfold runIndex
    rw [hphase]
    match ves, hne with
    | v0 :: rest, _ =>
      simp only [finalize]
      rw [if_neg]
      intro hok
      apply hnot
      simp only [faissAddOk, Bool.and_eq_true, decide_eq_true_eq] at hok
      simpa using hok
  · intro ix dm hrun
    unfold runIndex at hrun
    cases hphase : embedPhase embed docs with
    | error e => rw [hphase] at hrun; exact Except.noConfusion hrun
    | ok p =>
      obtain ⟨ves, vds⟩ := p
      rw [hphase] at hrun
      match ves, hrun with
      | v0 :: rest, hrun =>
        simp only [finalize] at hrun
        by_cases hok : faissAddOk v0.length ((v0 :: rest).flatten) = true
        · rw [if_pos hok] at hrun
          simp only [Except.ok.injEq, Prod.mk.injEq] at hrun
          obtain ⟨rfl, rfl⟩ := hrun
          simpa [faissAddOk] using hok
        · rw [if_neg hok] at hrun
          exact Except.noConfusion hrun

/-- An oracle whose vector lengths (2 then 3) make the flattened total 5,
not divisible by the first length. -/
def embedBad : EmbedOracle := fun t =>
  if t = ['a'] then .ok [1, 1] else .ok [9, 9, 9]

theorem dim_mismatch_amended_witness :
    embedPhase embedBad docsMixed = .ok ([[1, 1], [9, 9, 9]], docsMixed)
    ∧ ¬ (([[1, 1], [9, 9, 9]] : List (List Int)).headI.length ≠ 0
        ∧ ([[1, 1], [9, 9, 9]] : List (List Int)).headI.length
            ∣ ([[1, 1], [9, 9, 9]] : List (List Int)).flatten.length)
    ∧ runIndex embedBad docsMixed = .error () :=
  ⟨by decide, by decide,
    (dim_mismatch_amended embedBad docsMixed).1 [[1, 1], [9, 9, 9]] docsMixed
      (by decide) (by decide) (by decide)⟩

/-! ## Stored chunk text after a truncation retry (C7)

`indexDocuments` (lines 148-151) calls `safeEmbedChunk(doc.pageContent)`
and, on success, pushes `result.embedding` but the *original* `doc`:
`result.chunk` — the truncated text the vector was computed from — is
discarded, so the retained record keeps the untruncated chunk text. -/

/-- An oracle that classifies the 5-word chunk as too long once, then
accepts its 4-word truncation. -/
def embedOnceLong : EmbedOracle := fun t =>
  if t = "a b c d e".toList then .tooLong
  else if t = "a b c d".toList then .ok [7] else .fail

def docFive : Document := ⟨"a b c d e".toList, sampleMetaA⟩

/-- **C7, counterexample.** A chunk that fails once on length and succeeds
after one truncation is stored with the *original* chunk text: the
embedding `[7]` was produced from the truncated text `"a b c d"`, yet the
document record retained alongside it still carries `"a b c d e"`. -/
theorem stored_text_counterexample :
    truncate80 "a b c d e".toList = "a b c d".toList
    ∧ safeEmbedChunk embedOnceLong "a b c d e".toList
        = .ok (some ("a b c d".toList, [7]))
    ∧ embedPhase embedOnceLong [docFive] = .ok ([[7]], [docFive])
    ∧ docFive.pageContent = "a b c d e".toList
    ∧ "a b c d e".toList ≠ "a b c d".toList :=
  ⟨by decide, by decide, by decide, by decide, by decide⟩

/-- **C7, amended.** After one length failure and a successful retry, the
vector stored is the embedding of the truncated text, but the document
record pushed alongside it is the original, untruncated one: the truncated
text returned by `safeEmbedChunk` is discarded by the caller. -/
theorem stored_text_amended (embed : EmbedOracle) (d : Document)
    (ds : List Document) (v : List Int) (es : List (List Int))
    (vds : List Document)
    (h1 : embed d.pageContent = .tooLong)
    (h2 : embed (truncate80 d.pageContent) = .ok v)
    (hrest : embedPhase embed ds = .ok (es, vds)) :
    safeEmbedChunk embed d.pageContent = .ok (some (truncate80 d.pageContent, v))
    ∧ embedPhase embed (d :: ds) = .ok (v :: es, d :: vds) := by
  have hchunk : safeEmbedChunk embed d.pageContent
      = .ok (some (truncate80 d.pageContent, v)) := by
    show safeEmbedAux embed 5 d.pageContent = _
    simp only [safeEmbedAux, h1, h2]
  exact ⟨hchunk, by simp only [embedPhase, hchunk, hrest]⟩

theorem stored_text_amended_witness :
    (embedOnceLong docFive.pageContent = .tooLong
      ∧ embedOnceLong (truncate80 docFive.pageContent) = .ok [7]
      ∧ embedPhase embedOnceLong [] = .ok ([], []))
    ∧ (safeEmbedChunk embedOnceLong docFive.pageContent
        = .ok (some (truncate80 docFive.pageContent, [7]))
      ∧ embedPhase embedOnceLong [docFive] = .ok ([7] :: [], docFive :: [])) :=
  ⟨⟨by decide, by decide, by decide⟩,
    stored_text_amended embedOnceLong docFive [] [7] [] []
      (by decide) (by decide) (by decide)⟩

/-! ## Point store upsert-merge (C4)

`generateContext` (data-array variant, src/unnamed/part_014 lines 137-268):
per parsed item, a deterministic id is derived from the label text, a
first sighting embeds the representative text and inserts a point, a later
sighting appends `{text, url}` to the existing point's `data` payload via
`setPayload` without touching the vector.  The Qdrant client is modelled
as an association list keyed by id; the SHA-1 digest is the external
`hash` parameter. -/

/-- A stored point: vector plus payload `{[field]: label, data: [...]}`.
Each `data` entry is a `(text, url)` contribution. -/
structure Point where
  vector : List Int
  label : Str
  data : List (Str × Str)
deriving DecidableEq

abbrev Store := List (Str × Point)

/-- `getExistingPoint`: retrieve by id (`client.retrieve`). -/
def retrievePoint (s : Store) (id : Str) : Option Point :=
  (s.find? (fun e => e.1 = id)).map (·.2)

/-- `client.upsert` with a single point: replace the point stored under
`id`, or append a new entry. -/
def upsertPoint (s : Store) (id : Str) (p : Point) : Store :=
  if (s.find? (fun e => e.1 = id)).isSome then
    s.map (fun e => if e.1 = id then (id, p) else e)
  else s ++ [(id, p)]

/-- `updatePayloadOnly` (`client.setPayload`): rewrite the payload fields
of the point under `id`, keeping its stored vector. -/
def setPayloadOnly (s : Store) (id : Str) (label : Str)
    (data : List (Str × Str)) : Store :=
  s.map (fun e => if e.1 = id then (e.1, ⟨e.2.vector, label, data⟩) else e)

/-- Number of entries stored under `id`. -/
def countId (s : Store) (id : Str) : Nat :=
  (s.filter (fun e => e.1 = id)).length

/-- `generateId` (generateContext.ts lines 16-25): the hex digest of the
label text formatted into the 8-4-4-4-12 UUID shape.  The SHA-1 digest
itself is a Node `crypto` call, abstracted as the `hash` parameter. -/
def generateId (hash : Str → Str) (content : Str) : Str :=
  let h := hash content
  (h.take 8) ++ '-' :: ((h.drop 8).take 4) ++ '-' :: ((h.drop 12).take 4)
    ++ '-' :: ((h.drop 16).take 4) ++ '-' :: ((h.drop 20).take 12)

/-- One parsed completion item after field coalescing
(`item.interest || item.term`, `item.text || item.content || ''`). -/
structure ResultItem where
  interest : Str
  text : Str
deriving DecidableEq

/-- The per-item body of the Qdrant loop (src/unnamed/part_014 lines
217-260): skip weak items, merge into an existing point payload-only, or
embed and insert a fresh point (skipping failed embeddings). -/
def processItem (hash : Str → Str) (embed : Str → List Int) (pageUrl : Str)
    (s : Store) (item : ResultItem) : Store :=
  if item.interest = [] ∨ item.text = [] ∨ item.text.length < 20 then s
  else
    let id := generateId hash item.interest
    match retrievePoint s id with
    | some p => setPayloadOnly s id item.interest (p.data ++ [(item.text, pageUrl)])
    | none =>
      let v := embed item.text
      if v = [] then s
      else upsertPoint s id ⟨v, item.interest, [(item.text, pageUrl)]⟩

/-- **C4.** Two sequential sightings of label `L` from two documents — the
first inserting, the second merging — leave exactly one point keyed by
`L`'s hash-derived id, holding both `(text, url)` contributions and the
vector embedded at first sighting (the merge writes payload only). -/
theorem label_merge_correct (hash : Str → Str) (embed : Str → List Int)
    (s0 : Store) (L t1 t2 u1 u2 : Str)
    (hnew : retrievePoint s0 (generateId hash L) = none)
    (hL : L ≠ []) (ht1e : t1 ≠ []) (ht1 : ¬ t1.length < 20)
    (ht2e : t2 ≠ []) (ht2 : ¬ t2.length < 20)
    (hv : embed t1 ≠ []) :
    countId (processItem hash embed u2
        (processItem hash embed u1 s0 ⟨L, t1⟩) ⟨L, t2⟩) (generateId hash L) = 1
    ∧ retrievePoint (processItem hash embed u2
        (processItem hash embed u1 s0 ⟨L, t1⟩) ⟨L, t2⟩) (generateId hash L)
      = some ⟨embed t1, L, [(t1, u1), (t2, u2)]⟩ := by
  set id := generateId hash L with hid
  have hnone : s0.find? (fun e => e.1 = id) = none := by
    unfold retrievePoint at hnew
    cases hfind : s0.find? (fun e => e.1 = id) with
    | none => rfl
    | some e => rw [hfind] at hnew; simp at hnew
  have hnotin : ∀ e ∈ s0, ¬ e.1 = id := by
    intro e he
    have := List.find?_eq_none.1 hnone e he
    simpa using this
  have hs1 : processItem hash embed u1 s0 ⟨L, t1⟩
      = s0 ++ [(id, ⟨embed t1, L, [(t1, u1)]⟩)] := by
    unfold processItem
    rw [if_neg (by simp [hL, ht1e, ht1])]
    simp only [← hid, hnew]
    rw [if_neg hv]
    unfold upsertPoint
    rw [hnone]
    simp
  have hfind1 : (s0 ++ [(id, (⟨embed t1, L, [(t1, u1)]⟩ : Point))]).find?
      (fun e => e.1 = id) = some (id, ⟨embed t1, L, [(t1, u1)]⟩) := by
    rw [List.find?_append, hnone]
    simp
  have hs2 : processItem hash embed u2
      (processItem hash embed u1 s0 ⟨L, t1⟩) ⟨L, t2⟩
      = s0 ++ [(id, ⟨embed t1, L, [(t1, u1), (t2, u2)]⟩)] := by
    rw [hs1]
    unfold processItem
    rw [if_neg (by simp [hL, ht2e, ht2])]
    have hret : retrievePoint (s0 ++ [(id, ⟨embed t1, L, [(t1, u1)]⟩)]) id
        = some ⟨embed t1, L, [(t1, u1)]⟩ := by
      unfold retrievePoint
      rw [hfind1]
      rfl
    simp only [← hid, hret]
    unfold setPayloadOnly
    rw [List.map_append]
    congr 1
    · conv_rhs => rw [← List.map_id s0]
      apply List.map_congr_left
      intro e he
      rw [if_neg (by simpa using hnotin e he)]
      rfl
    · simp
  rw [hs2]
  constructor
  · unfold countId
    rw [List.filter_append]
    have h1 : s0.filter (fun e => e.1 = id) = [] := by
      rw [List.filter_eq_nil_iff]
      intro e he
      simpa using hnotin e he
    rw [h1]
    simp
  · unfold retrievePoint
    rw [List.find?_append, hnone]
    simp

/-- Concrete instantiation data for `label_merge_correct`: identity hash,
constant embedding, 20-character texts. -/
def sampleHash : Str → Str := fun s => s

def sampleEmbed : Str → List Int := fun _ => [3]

def sampleT1 : Str := "aaaaaaaaaaaaaaaaaaaa".toList

def sampleT2 : Str := "bbbbbbbbbbbbbbbbbbbb".toList

theorem label_merge_correct_witness :
    (retrievePoint [] (generateId sampleHash ['l']) = none
      ∧ (['l'] : Str) ≠ [] ∧ sampleT1 ≠ [] ∧ ¬ sampleT1.length < 20
      ∧ sampleT2 ≠ [] ∧ ¬ sampleT2.length < 20 ∧ sampleEmbed sampleT1 ≠ [])
    ∧ (countId (processItem sampleHash sampleEmbed ['v']
          (processItem sampleHash sampleEmbed ['u'] [] ⟨['l'], sampleT1⟩)
          ⟨['l'], sampleT2⟩) (generateId sampleHash ['l']) = 1
      ∧ retrievePoint (processItem sampleHash sampleEmbed ['v']
          (processItem sampleHash sampleEmbed ['u'] [] ⟨['l'], sampleT1⟩)
          ⟨['l'], sampleT2⟩) (generateId sampleHash ['l'])
        = some ⟨sampleEmbed sampleT1, ['l'], [(sampleT1, ['u']), (sampleT2, ['v'])]⟩) :=
  ⟨⟨by decide, by decide, by decide, by decide, by decide, by decide, by decide⟩,
    label_merge_correct sampleHash sampleEmbed [] ['l'] sampleT1 sampleT2 ['u'] ['v']
      (by decide) (by decide) (by decide) (by decide) (by decide) (by decide)
      (by decide)⟩

/-! ## Retrieval-time handling of out-of-range search results (C8)

Two retrieval flows consume raw Faiss labels (which may be `-1` or stale):
`generateBlogPosts` (generateAnswers.js lines 147-166) skips invalid
indices and proceeds even with an empty reference list, while `generateQA`
(src/unnamed/part_008 lines 102-128) also skips invalid labels but calls
`process.exit(1)` when the assembled context is empty. -/

/-- The index-resolution loop of `generateBlogPosts` (generateAnswers.js
lines 147-160): an out-of-range index is warned about and skipped, an
in-range one contributes its document-map entry. -/
def resolveRefs (dm : List DocMeta) : List Int → List DocMeta
  | [] => []
  | i :: is =>
    if h : 0 ≤ i ∧ i < (dm.length : Int) then
      dm.get ⟨i.toNat, by omega⟩ :: resolveRefs dm is
    else resolveRefs dm is

/-- One retrieved context entry of `generateQA` (lines 110-120): the
source header followed by the chunk text, which is re-computed from the
source file via `getChunkContent` (the map entry carries no `content`
field).  A failed file read yields the `[Content not available]`
placeholder. -/
def qaEntry (files : Str → Option Str) (meta : DocMeta) : Str :=
  let chunk :=
    match files meta.source with
    | some text => getChunkContent text meta.chunkIndex 50
    | none => "[Content not available]".toList
  "Source (".toList ++ meta.source ++ ", chunk ".toList
    ++ (Nat.repr meta.chunkIndex).toList ++ "):".toList ++ '\n' :: chunk

/-- The context-building loop of `generateQA` (lines 102-121): invalid
labels are warned about and skipped, valid ones produce a context entry. -/
def buildContextTexts (files : Str → Option Str) (dm : List DocMeta) :
    List Int → List Str
  | [] => []
  | i :: is =>
    if h : 0 ≤ i ∧ i < (dm.length : Int) then
      qaEntry files (dm.get ⟨i.toNat, by omega⟩) :: buildContextTexts files dm is
    else buildContextTexts files dm is

/-- The tail of `generateQA` (lines 123-128): join the entries; an empty
context hits `process.exit(1)`, modelled as `Except.error ()`. -/
def generateQAContext (files : Str → Option Str) (dm : List DocMeta)
    (labels : List Int) : Except Unit Str :=
  let context :=
    List.intercalate ('\n' :: '\n' :: []) (buildContextTexts files dm labels)
  if context = [] then .error () else .ok context

def noFiles : Str → Option Str := fun _ => none

/-- **C8, counterexample.** A `generateQA` request whose search labels are
all out of range for the one-entry document map is aborted
(`process.exit(1)`) by the empty-context check instead of returning an
explicit empty result. -/
theorem empty_result_counterexample :
    ((-1 : Int) < 0)
    ∧ ((([sampleMetaA] : List DocMeta).length : Int) ≤ 5)
    ∧ buildContextTexts noFiles [sampleMetaA] [-1, 5] = []
    ∧ generateQAContext noFiles [sampleMetaA] [-1, 5] = .error () :=
  ⟨by decide, by decide, by decide, by decide⟩

/-- **C8, amended.** In both retrieval flows every out-of-range result is
skipped while the remaining results are still resolved (the resolved count
equals the count of in-range indices); when all results are filtered out,
`generateBlogPosts` proceeds with an explicit empty reference list, but
`generateQA` aborts the request via its empty-context exit. -/
theorem retrieval_filter_amended (files : Str → Option Str) (dm : List DocMeta)
    (indices labels : List Int) :
    (resolveRefs dm indices).length
        = (indices.filter (fun i => decide (0 ≤ i ∧ i < (dm.length : Int)))).length
    ∧ (buildContextTexts files dm labels).length
        = (labels.filter (fun i => decide (0 ≤ i ∧ i < (dm.length : Int)))).length
    ∧ ((∀ i ∈ indices, i < 0 ∨ (dm.length : Int) ≤ i) → resolveRefs dm indices = [])
    ∧ ((∀ i ∈ labels, i < 0 ∨ (dm.length : Int) ≤ i) →
        generateQAContext files dm labels = .error ()) := by
  refine ⟨?_, ?_, ?_, ?_⟩
  · induction indices with
    | nil => rfl
    | cons i is ih =>
      by_cases h : 0 ≤ i ∧ i < (dm.length : Int)
      · rw [resolveRefs, dif_pos h, List.filter_cons, if_pos (by simpa using h)]
        simpa using ih
      · rw [resolveRefs, dif_neg h, List.filter_cons, if_neg (by simpa using h)]
        exact ih
  · induction labels with
    | nil => rfl
    | cons i is ih =>
      by_cases h : 0 ≤ i ∧ i < (dm.length : Int)
      · rw [buildContextTexts, dif_pos h, List.filter_cons, if_pos (by simpa using h)]
        simpa using ih
      · rw [buildContextTexts, dif_neg h, List.filter_cons, if_neg (by simpa using h)]
        exact ih
  · intro hall
    induction indices with
    | nil => rfl
    | cons i is ih =>
      have hi := hall i (by simp)
      rw [resolveRefs, dif_neg (by omega)]
      exact ih fun j hj => hall j (by simp [hj])
  · intro hall
    have hempty : buildContextTexts files dm labels = [] := by
      induction labels with
      | nil => rfl
      | cons i is ih =>
        have hi := hall i (by simp)
        rw [buildContextTexts, dif_neg (by omega)]
        exact ih fun j hj => hall j (by simp [hj])
    rw [generateQAContext, hempty]
    rfl

theorem retrieval_filter_amended_witness :
    (∀ i ∈ ([-2, 7] : List Int), i < 0 ∨ (([sampleMetaA] : List DocMeta).length : Int) ≤ i)
    ∧ resolveRefs [sampleMetaA] [-2, 7] = []
    ∧ generateQAContext noFiles [sampleMetaA] [-2, 7] = .error () :=
  ⟨by decide,
    (retrieval_filter_amended noFiles [sampleMetaA] [-2, 7] [-2, 7]).2.2.1 (by decide),
    (retrieval_filter_amended noFiles [sampleMetaA] [-2, 7] [-2, 7]).2.2.2 (by decide)⟩

/-! ## Ranked similarity outputs of the report (C9)

`generateReport.ts` lines 227-231 rank the pairwise similarities with
`sort((x, y) => y.similarity - x.similarity)` (resp. ascending) and take
the first five.  `Array.prototype.sort` is stable and the comparator
inspects only `similarity`, so the output is the unique stable
similarity-ordered permutation — realized here by insertion sort, whose
sortedness, permutation and tie-stability are proved below.  The pair list
itself comes from the Jaccard fallback branch (lines 216-224), the only
live branch since `getPageEmbedding` (lines 22-24) always returns `null`
and so no label ever acquires a centroid. -/

/-- One entry of `sims`: `{interestA, interestB, similarity}`. -/
structure SimPair where
  interestA : Str
  interestB : Str
  similarity : ℚ
deriving DecidableEq

/-- The nested `i < j` loop order over the label list. -/
def pairsOf {α : Type} : List α → List (α × α)
  | [] => []
  | x :: xs => (xs.map (fun y => (x, y))) ++ pairsOf xs

/-- `jaccardSim` (generateReport.ts lines 45-54): intersection over union
of the deduplicated url lists. -/
def jaccardSim (a b : List Str) : ℚ :=
  let sA := a.dedup
  let sB := b.dedup
  let inter := (sA.filter (fun x => x ∈ sB)).length
  let uni := ((a ++ b).dedup).length
  if uni = 0 then 0 else (inter : ℚ) / (uni : ℚ)

/-- The fallback pair enumeration (generateReport.ts lines 216-224):
`allLabels` is `Object.keys(interestToPages)` in first-seen order. -/
def buildSims (allLabels : List Str) (toPages : Str → List Str) : List SimPair :=
  (pairsOf allLabels).map fun p => ⟨p.1, p.2, jaccardSim (toPages p.1) (toPages p.2)⟩

/-- The descending comparator `(x, y) => y.similarity - x.similarity`. -/
def simDesc (x y : SimPair) : Prop := y.similarity ≤ x.similarity

/-- The ascending comparator `(x, y) => x.similarity - y.similarity`. -/
def simAsc (x y : SimPair) : Prop := x.similarity ≤ y.similarity

instance : DecidableRel simDesc :=
  fun x y => inferInstanceAs (Decidable (y.similarity ≤ x.similarity))

instance : DecidableRel simAsc :=
  fun x y => inferInstanceAs (Decidable (x.similarity ≤ y.similarity))

instance : IsTotal SimPair simDesc := ⟨fun a b => le_total b.similarity a.similarity⟩

instance : IsTrans SimPair simDesc := ⟨fun _ _ _ hab hbc => le_trans hbc hab⟩

instance : IsTotal SimPair simAsc := ⟨fun a b => le_total a.similarity b.similarity⟩

instance : IsTrans SimPair simAsc := ⟨fun _ _ _ hab hbc => le_trans hab hbc⟩

/-- `interestCentroidSims` (line 230): top five of the stable descending
sort. -/
def topPairs (sims : List SimPair) : List SimPair :=
  (List.insertionSort simDesc sims).take 5

/-- `interestGapPairs` (line 231): first five of the stable ascending
sort. -/
def bottomPairs (sims : List SimPair) : List SimPair :=
  (List.insertionSort simAsc sims).take 5

/-- Lexical order on label text, as the spec's claimed tie-break. -/
def lexLt : Str → Str → Bool
  | [], [] => false
  | [], _ :: _ => true
  | _ :: _, [] => false
  | a :: as, b :: bs => if a < b then true else if b < a then false else lexLt as bs

theorem filter_orderedInsert_pos {α : Type} (r : α → α → Prop) [DecidableRel r]
    (p : α → Bool) (a : α) (ha : p a = true) :
    ∀ l : List α, (∀ b ∈ l, p b = true → r a b) →
      (l.orderedInsert r a).filter p = a :: l.filter p := by
  intro l
  induction l with
  | nil => intro _; simp [List.orderedInsert, ha]
  | cons b t ih =>
    intro h
    rw [List.orderedInsert]
    by_cases hr : r a b
    · rw [if_pos hr]
      simp [List.filter_cons, ha]
    · rw [if_neg hr]
      have hpb : p b = false := by
        by_contra hpb
        push_neg at hpb
        exact hr (h b (by simp) (by simpa using hpb))
      rw [List.filter_cons, if_neg (by simp [hpb]),
        List.filter_cons, if_neg (by simp [hpb])]
      exact ih fun c hc hpc => h c (by simp [hc]) hpc

theorem filter_orderedInsert_neg {α : Type} (r : α → α → Prop) [DecidableRel r]
    (p : α → Bool) (a : α) (ha : p a = false) :
    ∀ l : List α, (l.orderedInsert r a).filter p = l.filter p := by
  intro l
  induction l with
  | nil => simp [List.orderedInsert, ha]
  | cons b t ih =>
    rw [List.orderedInsert]
    by_cases hr : r a b
    · rw [if_pos hr, List.filter_cons, if_neg (by simp [ha])]
    · rw [if_neg hr, List.filter_cons]
      by_cases hpb : p b = true
      · rw [if_pos (by simpa using hpb), ih, List.filter_cons,
          if_pos (by simpa using hpb)]
      · rw [if_neg (by simpa using hpb), ih, List.filter_cons,
          if_neg (by simpa using hpb)]

/-- Stability of the sort model: the subsequence of entries at any fixed
similarity value is untouched by sorting. -/
theorem insertionSort_filter_sim (r : SimPair → SimPair → Prop) [DecidableRel r]
    (hr : ∀ a b : SimPair, a.similarity = b.similarity → r a b) (q : ℚ) :
    ∀ l : List SimPair,
      (List.insertionSort r l).filter (fun x => x.similarity = q)
        = l.filter (fun x => x.similarity = q) := by
  intro l
  induction l with
  | nil => rfl
  | cons a t ih =>
    rw [List.insertionSort]
    by_cases ha : a.similarity = q
    · rw [filter_orderedInsert_pos r _ a (by simpa using ha) _ ?_, ih,
        List.filter_cons, if_pos (by simpa using ha)]
      intro b _ hpb
      exact hr a b (by simp at hpb; rw [ha, hpb])
    · rw [filter_orderedInsert_neg r _ a (by simpa using ha), ih,
        List.filter_cons, if_neg (by simpa using ha)]

/-- Label list in first-seen order "b", "a", "c", all occurring on the
same single page, so every pair ties at similarity 1. -/
def labelsCex : List Str := [['b'], ['a'], ['c']]

def pagesCex : Str → List Str := fun _ => [['u']]

/-- **C9, counterexample.** With tied similarities, the ranked output
keeps the pair-generation order `(b,a), (b,c), (a,c)`: the pair involving
the lexically least label text `"a"` comes last, not first, so equal-value
pairs are not ordered by lexical order of their label text. -/
theorem tie_order_counterexample :
    topPairs (buildSims labelsCex pagesCex)
        = [⟨['b'], ['a'], 1⟩, ⟨['b'], ['c'], 1⟩, ⟨['a'], ['c'], 1⟩]
    ∧ bottomPairs (buildSims labelsCex pagesCex)
        = [⟨['b'], ['a'], 1⟩, ⟨['b'], ['c'], 1⟩, ⟨['a'], ['c'], 1⟩]
    ∧ (⟨['a'], ['c'], (1 : ℚ)⟩ : SimPair).similarity
        = (⟨['b'], ['a'], (1 : ℚ)⟩ : SimPair).similarity
    ∧ lexLt ['a'] ['b'] = true := by
  have hs : jaccardSim [['u']] [['u']] = 1 := by
    norm_num [jaccardSim]
  have hb : buildSims labelsCex pagesCex
      = [⟨['b'], ['a'], 1⟩, ⟨['b'], ['c'], 1⟩, ⟨['a'], ['c'], 1⟩] := by
    simp [buildSims, pairsOf, labelsCex, pagesCex, hs]
  refine ⟨?_, ?_, rfl, rfl⟩
  · rw [topPairs, hb]; decide
  · rw [bottomPairs, hb]; decide

/-- **C9, amended.** The ranked outputs are sorted by similarity
(descending for the top pairs, ascending for the gap pairs) and are the
first five of a stable permutation of the generated pair list: any two
pairs with equal similarity keep their generation order (nested-loop order
over first-seen labels), not lexical order of label text. -/
theorem report_tie_order_amended (sims : List SimPair) (q : ℚ) :
    (topPairs sims).Sorted simDesc
    ∧ (bottomPairs sims).Sorted simAsc
    ∧ (List.insertionSort simDesc sims).Perm sims
    ∧ (List.insertionSort simAsc sims).Perm sims
    ∧ (List.insertionSort simDesc sims).filter (fun x => x.similarity = q)
        = sims.filter (fun x => x.similarity = q)
    ∧ (List.insertionSort simAsc sims).filter (fun x => x.similarity = q)
        = sims.filter (fun x => x.similarity = q) := by
  refine ⟨?_, ?_, List.perm_insertionSort simDesc sims,
    List.perm_insertionSort simAsc sims, ?_, ?_⟩
  · exact ((List.sorted_insertionSort simDesc sims)).sublist
      (List.take_sublist 5 _)
  · exact ((List.sorted_insertionSort simAsc sims)).sublist
      (List.take_sublist 5 _)
  · exact insertionSort_filter_sim simDesc
      (fun a b h => by rw [simDesc, h]) q sims
  · exact insertionSort_filter_sim simAsc
      (fun a b h => by rw [simAsc, h]) q sims

/-! ## Cosine similarity guard (C10)

`cosineSimilarity` (generateReport.ts lines 9-20) accumulates `dot`,
`normA`, `normB` over `a`'s indices and guards the division with
`if (normA === 0 || normB === 0) return 0`.  Components are modelled as ℚ
(over which a sum of squares vanishes exactly when all components do);
`Math.sqrt` is an external call, abstracted as the `sqrt` parameter — the
guard renders the result independent of it on zero-norm inputs, which is
precisely how the JavaScript avoids the `0/0 = NaN` case. -/

def cosineSimilarity (sqrt : ℚ → ℚ) (a b : List ℚ) : ℚ :=
  let dot := ((a.zip b).map (fun p => p.1 * p.2)).sum
  let normA := (a.map (fun x => x * x)).sum
  let normB := ((b.take a.length).map (fun x => x * x)).sum
  if normA = 0 ∨ normB = 0 then 0 else dot / (sqrt normA * sqrt normB)

/-- **C10.** For equal-length vectors, `cosineSimilarity` returns 0
whenever either vector is all-zero (zero norm): the division is guarded,
so in particular the similarity of the all-zero vector with itself is 0,
not 1. -/
theorem cosineSimilarity_zero_guard (sqrt : ℚ → ℚ) (a b : List ℚ)
    (_hlen : a.length = b.length) :
    (((∀ x ∈ a, x = 0) ∨ (∀ x ∈ b, x = 0)) → cosineSimilarity sqrt a b = 0)
    ∧ ((∀ x ∈ a, x = 0) → cosineSimilarity sqrt a a = 0) := by
  constructor
  · intro hzero
    rw [cosineSimilarity]
    rw [if_pos]
    rcases hzero with hza | hzb
    · left
      apply List.sum_eq_zero
      intro x hx
      rcases List.mem_map.1 hx with ⟨y, hy, rfl⟩
      rw [hza y hy, mul_zero]
    · right
      apply List.sum_eq_zero
      intro x hx
      rcases List.mem_map.1 hx with ⟨y, hy, rfl⟩
      rw [hzb y ((List.take_sublist _ _).mem hy), mul_zero]
  · intro hza
    rw [cosineSimilarity]
    rw [if_pos]
    left
    apply List.sum_eq_zero
    intro x hx
    rcases List.mem_map.1 hx with ⟨y, hy, rfl⟩
    rw [hza y hy, mul_zero]

theorem cosineSimilarity_zero_guard_witness :
    (([0, 0] : List ℚ).length = ([0, 0] : List ℚ).length
      ∧ (∀ x ∈ ([0, 0] : List ℚ), x = 0))
    ∧ cosineSimilarity (fun q => q) [0, 0] [0, 0] = 0 :=
  ⟨⟨rfl, by decide⟩,
    (cosineSimilarity_zero_guard (fun q => q) [0, 0] [0, 0] rfl).2 (by decide)⟩

end SmartContent
